import Mathlib

/-!
# Cron expression parser and next-fire solver (`Cron.h`)

A shallow embedding of `Bosma::verify_and_set`, the `Bosma::Cron` constructor,
`Bosma::add` and `Bosma::Cron::cron_to_next`, with the properties of the
natural-language specification stated and settled against it.

Modelling conventions.

* `std::string` is a `List Char`; `std::set<int>` is a `Finset Int`.
* `int` and `time_t` are unbounded `Int`; `std::stoi` keeps its 32-bit range check.
* A `Clock::time_point` is the whole number of seconds `Clock::to_time_t` gives.
* The host civil-time library (`std::localtime`, `std::mktime`) is modelled for a zone
  with a fixed offset `gmtoff` (seconds east of UTC) and no DST, on the proleptic
  Gregorian calendar.
* `while (true)` in `cron_to_next` is a fuel-bounded iteration of the loop body
  `Cron.step`; running out of fuel is `none`, never a time point.
-/

namespace Bosma

/-! ## Civil time of the host: `std::tm`, `std::localtime`, `std::mktime` -/

/-- Gregorian leap-year rule. -/
def isleap (y : Int) : Bool :=
  decide ((y % 4 = 0 ∧ y % 100 ≠ 0) ∨ y % 400 = 0)

/-- Number of days of the year that precede month `m` (0-based; 12 gives the length of
the year), the table the C library calls `__mon_yday`. -/
def mon_yday (leap : Bool) (m : Int) : Int :=
  if m ≤ 0 then 0
  else if m = 1 then 31
  else (if leap then 1 else 0) +
    (if m = 2 then 59 else if m = 3 then 90 else if m = 4 then 120 else if m = 5 then 151
     else if m = 6 then 181 else if m = 7 then 212 else if m = 8 then 243
     else if m = 9 then 273 else if m = 10 then 304 else if m = 11 then 334 else 365)

/-- Days from 1970-01-01 to January 1st of year `y`. -/
def days_before_year (y : Int) : Int :=
  365 * (y - 1) + (y - 1) / 4 - (y - 1) / 100 + (y - 1) / 400 - 719162

/-- Length of year `y` in days. -/
def year_len (y : Int) : Int := if isleap y then 366 else 365

/-- Length in days of month `m` (0-based) of year `y`. -/
def days_in_month (y m : Int) : Int :=
  mon_yday (isleap y) (m + 1) - mon_yday (isleap y) m

/-- The calendar year that day number `n` (days since 1970-01-01) falls in, by splitting
the day count into 400-year, 100-year, 4-year and 1-year cycles. -/
def year_of_days (n : Int) : Int :=
  let z := n + 719162
  let era := z / 146097
  let doe := z % 146097
  let c := min (doe / 36524) 3
  let doc := doe - c * 36524
  let q := doc / 1461
  let doq := doc % 1461
  let a := min (doq / 365) 3
  1 + 400 * era + 100 * c + 4 * q + a

/-- The month (0-based) that day `yday` (0-based) of a year falls in: the last month whose
`mon_yday` entry does not exceed `yday`. -/
def month_of_yday (leap : Bool) (yday : Int) : Int :=
  if yday < mon_yday leap 1 then 0
  else if yday < mon_yday leap 2 then 1
  else if yday < mon_yday leap 3 then 2
  else if yday < mon_yday leap 4 then 3
  else if yday < mon_yday leap 5 then 4
  else if yday < mon_yday leap 6 then 5
  else if yday < mon_yday leap 7 then 6
  else if yday < mon_yday leap 8 then 7
  else if yday < mon_yday leap 9 then 8
  else if yday < mon_yday leap 10 then 9
  else if yday < mon_yday leap 11 then 10
  else 11

/-- The broken-down time record `std::tm`. -/
structure Tm where
  tm_sec : Int
  tm_min : Int
  tm_hour : Int
  tm_mday : Int
  tm_mon : Int
  tm_year : Int
  tm_wday : Int
  tm_yday : Int
  tm_isdst : Int
deriving DecidableEq, Repr

/-- The library call `std::localtime` in a zone `gmtoff` seconds east of UTC without DST:
every field, the weekday included, is computed from the instant. -/
def localtime (gmtoff : Int) (t : Int) : Tm :=
  let days := (t + gmtoff) / 86400
  let rem := (t + gmtoff) % 86400
  let y := year_of_days days
  let yday := days - days_before_year y
  let mon := month_of_yday (isleap y) yday
  { tm_sec := rem % 60
    tm_min := rem % 3600 / 60
    tm_hour := rem / 3600
    tm_mday := yday - mon_yday (isleap y) mon + 1
    tm_mon := mon
    tm_year := y - 1900
    tm_wday := (days + 4) % 7
    tm_yday := yday
    tm_isdst := 0 }

/-- The library call `std::mktime` in the same zone: it reads `tm_year`, `tm_mon`,
`tm_mday`, `tm_hour`, `tm_min` and `tm_sec` (out-of-range months carry into the year,
the other fields add linearly) and ignores `tm_wday`, `tm_yday` and `tm_isdst`. -/
def mktime (gmtoff : Int) (tm : Tm) : Int :=
  let year := tm.tm_year + 1900 + tm.tm_mon / 12
  let mon := tm.tm_mon % 12
  let days := days_before_year year + mon_yday (isleap year) mon + (tm.tm_mday - 1)
  days * 86400 + tm.tm_hour * 3600 + tm.tm_min * 60 + tm.tm_sec - gmtoff

/-! ## `Bosma::add` -/

/-- The helper `add(tm, time)`: `tm = *localtime(mktime(&tm) + time)`, with `time` in
seconds. -/
def add (gmtoff : Int) (tm : Tm) (time : Int) : Tm :=
  localtime gmtoff (mktime gmtoff tm + time)

/-! ## `Bosma::BadCronExpression` and `Bosma::verify_and_set` -/

/-- The exception `BadCronExpression`, one constructor per `throw` site, carrying the values
its message is built from. -/
inductive BadCronExpression where
  | must_be_5_fields (expression : List Char)
  | not_an_integer (sub_token expression : List Char)
  | not_convertable (sub_token expression : List Char)
  | out_of_bounds (sub_token : List Char) (upper_bound lower_bound : Int)
      (expression : List Char)
deriving DecidableEq

/-- The message `what()` returns. -/
def BadCronExpression.what : BadCronExpression → List Char
  | .must_be_5_fields expression =>
    "malformed cron string (must be 5 fields): ".toList ++ expression
  | .not_an_integer sub_token expression =>
    "malformed cron string (`".toList ++ sub_token ++ "` not an integer or *): ".toList
      ++ expression
  | .not_convertable sub_token expression =>
    "malformed cron string (`".toList ++ sub_token ++ "` not convertable to int): ".toList
      ++ expression
  | .out_of_bounds sub_token upper_bound lower_bound expression =>
    "malformed cron string ('".toList ++ sub_token ++ "' must be <= ".toList
      ++ (toString upper_bound).toList ++ " and >= ".toList ++ (toString lower_bound).toList
      ++ "): ".toList ++ expression

instance instDecidableEqResult {ε α : Type} [DecidableEq ε] [DecidableEq α] :
    DecidableEq (Except ε α)
  | .ok a, .ok b => if h : a = b then isTrue (by rw [h]) else isFalse (by simpa using h)
  | .error a, .error b => if h : a = b then isTrue (by rw [h]) else isFalse (by simpa using h)
  | .ok _, .error _ => isFalse (by simp)
  | .error _, .ok _ => isFalse (by simp)

/-- Whitespace in the C locale (`std::isspace`). -/
def isspace (c : Char) : Bool :=
  c = ' ' || c = '\t' || c = '\n' || c = '\x0b' || c = '\x0c' || c = '\r'

/-- Decimal digit (`std::isdigit`). -/
def isdigit (c : Char) : Bool := '0' ≤ c && c ≤ '9'

/-- Outcome of `std::stoi`: a value, or one of its two exceptions. -/
inductive StoiResult where
  | value (v : Int)
  | invalid_argument
  | out_of_range
deriving DecidableEq

/-- Positional value of a string of decimal digits. -/
def digits_value (ds : List Char) : Nat :=
  ds.foldl (fun acc d => 10 * acc + (d.toNat - 48)) 0

/-- The library call `std::stoi(str)` (base 10): skip leading whitespace, read an optional
sign and the longest run of digits, ignore whatever follows; no digit is
`invalid_argument`, a value outside the range of `int` is `out_of_range`. -/
def stoi (str : List Char) : StoiResult :=
  let s := str.dropWhile isspace
  let negative := s.head? = some '-'
  let s := if s.head? = some '-' ∨ s.head? = some '+' then s.tail else s
  let ds := s.takeWhile isdigit
  if ds = [] then .invalid_argument
  else
    let v : Int := if negative then -(digits_value ds : Int) else (digits_value ds : Int)
    if v < -2147483648 ∨ v > 2147483647 then .out_of_range else .value v

/-- The call `s.find_first_of(c, pos)`: index of the first `c` at or after `pos`; `none`
is `std::string::npos`. -/
def find_first_of : List Char → Char → Nat → Option Nat
  | [], _, _ => none
  | x :: xs, c, 0 => if x = c then some 0 else (find_first_of xs c 0).map (· + 1)
  | _ :: xs, c, pos + 1 => (find_first_of xs c pos).map (· + 1)

/-- The call `s.substr(pos, len)`. -/
def substr (s : List Char) (pos len : Nat) : List Char := (s.drop pos).take len

/-- A position found by `find_first_of` is at or after the start and inside the string. -/
theorem find_first_of_bounds {s : List Char} {c : Char} {pos p : Nat}
    (h : find_first_of s c pos = some p) : pos ≤ p ∧ p < s.length := by
  induction s generalizing pos p with
  | nil => simp [find_first_of] at h
  | cons x xs ih =>
    cases pos with
    | zero =>
      simp only [find_first_of] at h
      split_ifs at h with hx
      · simp at h; subst h; simp
      · simp only [Option.map_eq_some'] at h
        obtain ⟨q, hq, rfl⟩ := h
        have := ih hq
        simp only [List.length_cons]; omega
    | succ pos =>
      simp only [find_first_of, Option.map_eq_some'] at h
      obtain ⟨q, hq, rfl⟩ := h
      have := ih hq
      simp only [List.length_cons]; omega

/-- The `while (comma_pos != npos)` loop of `verify_and_set`, entered with
`last_after_comma_pos` and `comma_pos = token.find_first_of(',', last_after_comma_pos)`.
It terminates because each iteration moves `last_after_comma_pos` past one comma. -/
def verify_loop (token expression : List Char) (lower_bound upper_bound : Int) (adjust : Bool)
    (last_after_comma_pos : Nat) (fields : Finset Int) :
    Except BadCronExpression (Finset Int) :=
  match h : find_first_of token ',' last_after_comma_pos with
  | none => .ok fields
  | some comma_pos =>
    let sub_token := substr token last_after_comma_pos (comma_pos - last_after_comma_pos)
    match stoi sub_token with
    | .invalid_argument => .error (.not_an_integer sub_token expression)
    | .out_of_range => .error (.not_convertable sub_token expression)
    | .value field =>
      if field < lower_bound ∨ field > upper_bound then
        .error (.out_of_bounds sub_token upper_bound lower_bound expression)
      else
        let field := if adjust then field - 1 else field
        verify_loop token expression lower_bound upper_bound adjust (comma_pos + 1)
          (insert field fields)
termination_by token.length - last_after_comma_pos
decreasing_by
  have := find_first_of_bounds h
  omega

/-- The function `verify_and_set(token, expression, fields, lower_bound, upper_bound,
adjust)`: the result is the new content of `fields`, or the exception thrown. -/
def verify_and_set (token expression : List Char) (fields : Finset Int)
    (lower_bound upper_bound : Int) (adjust : Bool) : Except BadCronExpression (Finset Int) :=
  if token ≠ ['*'] then
    verify_loop token expression lower_bound upper_bound adjust 0 fields
  else .ok fields

/-! ## `Bosma::Cron` -/

/-- The data members of `class Cron`. -/
structure Cron where
  minute : Finset Int
  hour : Finset Int
  day : Finset Int
  month : Finset Int
  day_of_week : Finset Int

instance instDecidableEqCron : DecidableEq Cron := fun a b =>
  decidable_of_iff
    (a.minute = b.minute ∧ a.hour = b.hour ∧ a.day = b.day ∧ a.month = b.month ∧
      a.day_of_week = b.day_of_week)
    (by cases a; cases b; simp)

/-- Reading a `std::istringstream` with `std::istream_iterator<std::string>`: each
extraction skips whitespace and then takes characters up to the next whitespace or the
end of input; `cur` holds the characters of the token being read, last first. -/
def read_tokens : List Char → List Char → List (List Char)
  | [], cur => if cur = [] then [] else [cur.reverse]
  | c :: cs, cur =>
    if isspace c then
      if cur = [] then read_tokens cs [] else cur.reverse :: read_tokens cs []
    else read_tokens cs (c :: cur)

/-- The vector `tokens` of the constructor. -/
def istream_tokens (expression : List Char) : List (List Char) :=
  read_tokens expression []

/-- The constructor `Cron::Cron(expression)` (named `construct` here, the class name being
taken by the structure): the constructed schedule, or the exception
thrown. The five sets start empty. -/
def Cron.construct (expression : List Char) : Except BadCronExpression Cron :=
  match istream_tokens expression with
  | [t0, t1, t2, t3, t4] => do
    let minute ← verify_and_set t0 expression ∅ 0 59 false
    let hour ← verify_and_set t1 expression ∅ 0 23 false
    let day ← verify_and_set t2 expression ∅ 1 31 false
    let month ← verify_and_set t3 expression ∅ 1 12 true
    let day_of_week ← verify_and_set t4 expression ∅ 0 6 false
    pure { minute := minute, hour := hour, day := day, month := month,
           day_of_week := day_of_week }
  | _ => .error (.must_be_5_fields expression)

/-- One pass through the body of `while (true)` in `cron_to_next`: `some next1` when a
branch ends in `continue` with the record changed to `next1`, `none` at `break`. The
month branch assigns the fields directly and calls neither `add` nor `mktime`. -/
def Cron.step (gmtoff : Int) (c : Cron) (next : Tm) : Option Tm :=
  if c.month ≠ ∅ ∧ next.tm_mon ∉ c.month then
    let next : Tm :=
      if next.tm_mon + 1 > 11 then { next with tm_mon := 0, tm_year := next.tm_year + 1 }
      else { next with tm_mon := next.tm_mon + 1 }
    some { next with tm_mday := 1, tm_hour := 0, tm_min := 0 }
  else if c.day ≠ ∅ ∧ next.tm_mday ∉ c.day then
    let next := add gmtoff next (24 * 3600)
    some { next with tm_hour := 0, tm_min := 0 }
  else if c.day_of_week ≠ ∅ ∧ next.tm_wday ∉ c.day_of_week then
    let next := add gmtoff next (24 * 3600)
    some { next with tm_hour := 0, tm_min := 0 }
  else if c.hour ≠ ∅ ∧ next.tm_hour ∉ c.hour then
    let next := add gmtoff next 3600
    some { next with tm_min := 0 }
  else if c.minute ≠ ∅ ∧ next.tm_min ∉ c.minute then
    some (add gmtoff next 60)
  else none

/-- The loop `while (true)` run for at most `fuel` passes: `some next` is the record at
`break`, `none` means the loop has not reached `break` within `fuel` passes. -/
def Cron.loop (gmtoff : Int) (c : Cron) : Nat → Tm → Option Tm
  | 0, _ => none
  | fuel + 1, next =>
    match c.step gmtoff next with
    | none => some next
    | some next1 => Cron.loop gmtoff c fuel next1

/-- The record `next` on entry to the loop of `cron_to_next`: the local time of `from`
with the seconds cleared, plus one minute. -/
def Cron.start (gmtoff : Int) (from_ : Int) : Tm :=
  let now := from_
  let next := localtime gmtoff now
  let next := { next with tm_sec := 0 }
  add gmtoff next 60

/-- The method `Cron::cron_to_next(from)`: `some r` when the loop reaches `break` within
`fuel` passes and the method returns `r`. -/
def Cron.cron_to_next (gmtoff : Int) (c : Cron) (fuel : Nat) (from_ : Int) : Option Int :=
  match c.loop gmtoff fuel (Cron.start gmtoff from_) with
  | none => none
  | some next => some (mktime gmtoff { next with tm_isdst := -1 })

/-- The state of `next` after `n` passes of the loop body that all ended in `continue`
(`none` once a pass has reached `break`). -/
def Cron.iterate (gmtoff : Int) (c : Cron) : Nat → Tm → Option Tm
  | 0, next => some next
  | n + 1, next =>
    match c.step gmtoff next with
    | none => none
    | some next1 => Cron.iterate gmtoff c n next1

/-! ## Vocabulary of the specification -/

/-- The record after the assignments of the month branch of `cron_to_next`. -/
def Tm.next_month (tm : Tm) : Tm :=
  { tm_sec := tm.tm_sec, tm_min := 0, tm_hour := 0, tm_mday := 1,
    tm_mon := if tm.tm_mon + 1 > 11 then 0 else tm.tm_mon + 1,
    tm_year := if tm.tm_mon + 1 > 11 then tm.tm_year + 1 else tm.tm_year,
    tm_wday := tm.tm_wday, tm_yday := tm.tm_yday, tm_isdst := tm.tm_isdst }

/-- The record after `next.tm_hour = 0; next.tm_min = 0;`. -/
def Tm.clear_hour_min (tm : Tm) : Tm := { tm with tm_hour := 0, tm_min := 0 }

/-- The record after `next.tm_min = 0;`. -/
def Tm.clear_min (tm : Tm) : Tm := { tm with tm_min := 0 }

/-- The substrings of a token that end at a comma, left to right; `cur` holds the
characters since the last comma, last first. What follows the last comma is not listed. -/
def comma_segments : List Char → List Char → List (List Char)
  | _, [] => []
  | cur, c :: cs =>
    if c = ',' then cur.reverse :: comma_segments [] cs else comma_segments (c :: cur) cs

/-- The body of the loop of `verify_and_set` applied to a list of sub-tokens in turn. -/
def insert_segments (expression : List Char) (lower_bound upper_bound : Int) (adjust : Bool) :
    List (List Char) → Finset Int → Except BadCronExpression (Finset Int)
  | [], fields => .ok fields
  | sub_token :: rest, fields =>
    match stoi sub_token with
    | .invalid_argument => .error (.not_an_integer sub_token expression)
    | .out_of_range => .error (.not_convertable sub_token expression)
    | .value field =>
      if field < lower_bound ∨ field > upper_bound then
        .error (.out_of_bounds sub_token upper_bound lower_bound expression)
      else
        insert_segments expression lower_bound upper_bound adjust rest
          (insert (if adjust then field - 1 else field) fields)

/-- A structurally recursive form of `verify_and_set`, proved equal to it in
`verify_and_set_eq_scan`, on which concrete tokens can be evaluated. -/
def scan_and_set (token expression : List Char) (fields : Finset Int)
    (lower_bound upper_bound : Int) (adjust : Bool) : Except BadCronExpression (Finset Int) :=
  if token ≠ ['*'] then
    insert_segments expression lower_bound upper_bound adjust (comma_segments [] token) fields
  else .ok fields

/-- The constructor with `scan_and_set` in place of `verify_and_set`, proved equal to
`Cron.construct` in `construct_eq_scan`. -/
def Cron.construct_scan (expression : List Char) : Except BadCronExpression Cron :=
  match istream_tokens expression with
  | [t0, t1, t2, t3, t4] => do
    let minute ← scan_and_set t0 expression ∅ 0 59 false
    let hour ← scan_and_set t1 expression ∅ 0 23 false
    let day ← scan_and_set t2 expression ∅ 1 31 false
    let month ← scan_and_set t3 expression ∅ 1 12 true
    let day_of_week ← scan_and_set t4 expression ∅ 0 6 false
    pure { minute := minute, hour := hour, day := day, month := month,
           day_of_week := day_of_week }
  | _ => .error (.must_be_5_fields expression)

/-- Value of a decimal integer literal: an optional sign followed by one or more decimal
digits and nothing else; `none` for any other string. -/
def decimal_value (seg : List Char) : Option Int :=
  match seg with
  | '-' :: ds => if ds ≠ [] ∧ ds.all isdigit then some (-(digits_value ds : Int)) else none
  | '+' :: ds => if ds ≠ [] ∧ ds.all isdigit then some (digits_value ds : Int) else none
  | ds => if ds ≠ [] ∧ ds.all isdigit then some (digits_value ds : Int) else none

/-- The words of a string: what is left of splitting it at every whitespace character
once the empty pieces are dropped, i.e. the maximal runs of other characters. -/
def ws_words (s : List Char) : List (List Char) :=
  (s.splitOnP isspace).filter (fun w => decide (w ≠ []))

/-- The sub-token is a decimal integer literal with a value within `lo..hi`. -/
def literal_in_bounds (lo hi : Int) (seg : List Char) : Bool :=
  match decimal_value seg with
  | some v => decide (lo ≤ v) && decide (v ≤ hi)
  | none => false

/-- A field of a well-formed expression for the bounds `lo..hi`: the token `*`, or a
comma-separated list of decimal integers, each within the bounds. -/
def well_formed_field (lo hi : Int) (token : List Char) : Bool :=
  decide (token = ['*']) || (token.splitOn ',').all (literal_in_bounds lo hi)

/-- A well-formed expression: exactly five whitespace-separated fields, each well formed
for the bounds of its position. -/
def well_formed (expression : List Char) : Bool :=
  match ws_words expression with
  | [t0, t1, t2, t3, t4] =>
    well_formed_field 0 59 t0 && well_formed_field 0 23 t1 && well_formed_field 1 31 t2 &&
      well_formed_field 1 12 t3 && well_formed_field 0 6 t4
  | _ => false

/-- The record denotes an existing calendar second: every field that `mktime` reads is in
its normal range and the day exists in its month. -/
def Tm.valid (tm : Tm) : Prop :=
  (0 ≤ tm.tm_sec ∧ tm.tm_sec ≤ 59) ∧ (0 ≤ tm.tm_min ∧ tm.tm_min ≤ 59) ∧
  (0 ≤ tm.tm_hour ∧ tm.tm_hour ≤ 23) ∧ (0 ≤ tm.tm_mon ∧ tm.tm_mon ≤ 11) ∧
  (1 ≤ tm.tm_mday ∧ tm.tm_mday ≤ days_in_month (tm.tm_year + 1900) tm.tm_mon)

/-- A schedule field admits a value: its set is empty (wildcard) or contains the value. -/
def admits (s : Finset Int) (v : Int) : Prop := s = ∅ ∨ v ∈ s

instance instDecidableAdmits (s : Finset Int) (v : Int) : Decidable (admits s v) :=
  inferInstanceAs (Decidable (s = ∅ ∨ v ∈ s))

/-- The instant `t` is consistent with schedule `c`: month, day of month, day of week, hour
and minute of its local broken-down time are each admitted by the corresponding set. -/
def consistent (gmtoff : Int) (c : Cron) (t : Int) : Prop :=
  admits c.month (localtime gmtoff t).tm_mon ∧
  admits c.day (localtime gmtoff t).tm_mday ∧
  admits c.day_of_week (localtime gmtoff t).tm_wday ∧
  admits c.hour (localtime gmtoff t).tm_hour ∧
  admits c.minute (localtime gmtoff t).tm_min

instance instDecidableConsistent (gmtoff : Int) (c : Cron) (t : Int) :
    Decidable (consistent gmtoff c t) :=
  inferInstanceAs (Decidable (_ ∧ _ ∧ _ ∧ _ ∧ _))

/-- Every stored value lies in the stored domain of its field. -/
def in_domain (c : Cron) : Prop :=
  (∀ v ∈ c.minute, 0 ≤ v ∧ v ≤ 59) ∧ (∀ v ∈ c.hour, 0 ≤ v ∧ v ≤ 23) ∧
  (∀ v ∈ c.day, 1 ≤ v ∧ v ≤ 31) ∧ (∀ v ∈ c.month, 0 ≤ v ∧ v ≤ 11) ∧
  (∀ v ∈ c.day_of_week, 0 ≤ v ∧ v ≤ 6)

/-! ## The calendar model -/

theorem days_before_year_decomp (e c q a : Int) (hc0 : 0 ≤ c) (hc : c ≤ 3) (hq0 : 0 ≤ q)
    (hq : q ≤ 24) (ha0 : 0 ≤ a) (ha : a ≤ 3) :
    days_before_year (1 + 400 * e + 100 * c + 4 * q + a)
      = 146097 * e + 36524 * c + 1461 * q + 365 * a - 719162 := by
  unfold days_before_year
  have h4 : (1 + 400 * e + 100 * c + 4 * q + a - 1) / 4 = 100 * e + 25 * c + q := by omega
  have h100 : (1 + 400 * e + 100 * c + 4 * q + a - 1) / 100 = 4 * e + c := by omega
  have h400 : (1 + 400 * e + 100 * c + 4 * q + a - 1) / 400 = e := by omega
  rw [h4, h100, h400]; ring

theorem days_before_year_succ (y : Int) :
    days_before_year (y + 1) = days_before_year y + year_len y := by
  unfold days_before_year year_len isleap
  have e1 : y + 1 - 1 = y := by ring
  rw [e1]
  have h4 : (y - 1) / 4 = y / 4 - (if y % 4 = 0 then 1 else 0) := by split_ifs <;> omega
  have h100 : (y - 1) / 100 = y / 100 - (if y % 100 = 0 then 1 else 0) := by
    split_ifs <;> omega
  have h400 : (y - 1) / 400 = y / 400 - (if y % 400 = 0 then 1 else 0) := by
    split_ifs <;> omega
  rw [h4, h100, h400]
  have a1 : y % 400 = 0 → y % 100 = 0 := by omega
  have a2 : y % 100 = 0 → y % 4 = 0 := by omega
  by_cases c4 : y % 4 = 0 <;> by_cases c100 : y % 100 = 0 <;> by_cases c400 : y % 400 = 0 <;>
    simp [c4, c100, c400] at a1 a2 ⊢ <;> ring

theorem year_len_eq_mon_yday (y : Int) : year_len y = mon_yday (isleap y) 12 := by
  unfold year_len mon_yday; cases isleap y <;> simp

theorem year_of_days_lb (n : Int) : days_before_year (year_of_days n) ≤ n := by
  unfold year_of_days
  simp only []
  rw [days_before_year_decomp _ _ _ _ (by omega) (by omega) (by omega) (by omega) (by omega)
    (by omega)]
  omega

theorem year_of_days_ub (n : Int) :
    n < days_before_year (year_of_days n) + year_len (year_of_days n) := by
  unfold year_of_days year_len isleap
  simp only []
  rw [days_before_year_decomp _ _ _ _ (by omega) (by omega) (by omega) (by omega) (by omega)
    (by omega)]
  split_ifs with h
  · omega
  · simp only [decide_eq_true_eq] at h
    omega

theorem mon_yday_common :
    mon_yday false 0 = 0 ∧
    mon_yday false 1 = 31 ∧
    mon_yday false 2 = 59 ∧
    mon_yday false 3 = 90 ∧
    mon_yday false 4 = 120 ∧
    mon_yday false 5 = 151 ∧
    mon_yday false 6 = 181 ∧
    mon_yday false 7 = 212 ∧
    mon_yday false 8 = 243 ∧
    mon_yday false 9 = 273 ∧
    mon_yday false 10 = 304 ∧
    mon_yday false 11 = 334 ∧
    mon_yday false 12 = 365 := by decide

theorem mon_yday_leap :
    mon_yday true 0 = 0 ∧
    mon_yday true 1 = 31 ∧
    mon_yday true 2 = 60 ∧
    mon_yday true 3 = 91 ∧
    mon_yday true 4 = 121 ∧
    mon_yday true 5 = 152 ∧
    mon_yday true 6 = 182 ∧
    mon_yday true 7 = 213 ∧
    mon_yday true 8 = 244 ∧
    mon_yday true 9 = 274 ∧
    mon_yday true 10 = 305 ∧
    mon_yday true 11 = 335 ∧
    mon_yday true 12 = 366 := by decide

theorem month_of_yday_common_eq (yd : Int) :
    month_of_yday false yd =
      if yd < 31 then 0 else if yd < 59 then 1 else if yd < 90 then 2 else if yd < 120 then 3 else if yd < 151 then 4 else if yd < 181 then 5 else if yd < 212 then 6 else if yd < 243 then 7 else if yd < 273 then 8 else if yd < 304 then 9 else if yd < 334 then 10 else 11 := by
  obtain ⟨c0, c1, c2, c3, c4, c5, c6, c7, c8, c9, c10, c11, c12⟩ := mon_yday_common
  unfold month_of_yday
  rw [c1, c2, c3, c4, c5, c6, c7, c8, c9, c10, c11]

theorem month_of_yday_leap_eq (yd : Int) :
    month_of_yday true yd =
      if yd < 31 then 0 else if yd < 60 then 1 else if yd < 91 then 2 else if yd < 121 then 3 else if yd < 152 then 4 else if yd < 182 then 5 else if yd < 213 then 6 else if yd < 244 then 7 else if yd < 274 then 8 else if yd < 305 then 9 else if yd < 335 then 10 else 11 := by
  obtain ⟨c0, c1, c2, c3, c4, c5, c6, c7, c8, c9, c10, c11, c12⟩ := mon_yday_leap
  unfold month_of_yday
  rw [c1, c2, c3, c4, c5, c6, c7, c8, c9, c10, c11]

theorem month_cases (m : Int) (h : 0 ≤ m ∧ m ≤ 11) :
    m = 0 ∨ m = 1 ∨ m = 2 ∨ m = 3 ∨ m = 4 ∨ m = 5 ∨ m = 6 ∨ m = 7 ∨ m = 8 ∨ m = 9 ∨
      m = 10 ∨ m = 11 := by
  omega

theorem month_of_yday_range (leap : Bool) (yd : Int) :
    0 ≤ month_of_yday leap yd ∧ month_of_yday leap yd ≤ 11 := by
  cases leap
  · rw [month_of_yday_common_eq]; omega
  · rw [month_of_yday_leap_eq]; omega

theorem month_of_yday_spec (leap : Bool) (yd : Int) (h0 : 0 ≤ yd)
    (h1 : yd < mon_yday leap 12) :
    mon_yday leap (month_of_yday leap yd) ≤ yd ∧
      yd < mon_yday leap (month_of_yday leap yd + 1) := by
  cases leap
  ·
    obtain ⟨c0, c1, c2, c3, c4, c5, c6, c7, c8, c9, c10, c11, c12⟩ := mon_yday_common
    rw [c12] at h1
    have e := month_of_yday_common_eq yd
    have hcases := month_cases _ (month_of_yday_range false yd)
    rcases hcases with h | h | h | h | h | h | h | h | h | h | h | h
    · rw [h] at e ⊢; rw [show (0 : Int) + 1 = 1 from rfl, c0, c1]; omega
    · rw [h] at e ⊢; rw [show (1 : Int) + 1 = 2 from rfl, c1, c2]; omega
    · rw [h] at e ⊢; rw [show (2 : Int) + 1 = 3 from rfl, c2, c3]; omega
    · rw [h] at e ⊢; rw [show (3 : Int) + 1 = 4 from rfl, c3, c4]; omega
    · rw [h] at e ⊢; rw [show (4 : Int) + 1 = 5 from rfl, c4, c5]; omega
    · rw [h] at e ⊢; rw [show (5 : Int) + 1 = 6 from rfl, c5, c6]; omega
    · rw [h] at e ⊢; rw [show (6 : Int) + 1 = 7 from rfl, c6, c7]; omega
    · rw [h] at e ⊢; rw [show (7 : Int) + 1 = 8 from rfl, c7, c8]; omega
    · rw [h] at e ⊢; rw [show (8 : Int) + 1 = 9 from rfl, c8, c9]; omega
    · rw [h] at e ⊢; rw [show (9 : Int) + 1 = 10 from rfl, c9, c10]; omega
    · rw [h] at e ⊢; rw [show (10 : Int) + 1 = 11 from rfl, c10, c11]; omega
    · rw [h] at e ⊢; rw [show (11 : Int) + 1 = 12 from rfl, c11, c12]; omega
  ·
    obtain ⟨c0, c1, c2, c3, c4, c5, c6, c7, c8, c9, c10, c11, c12⟩ := mon_yday_leap
    rw [c12] at h1
    have e := month_of_yday_leap_eq yd
    have hcases := month_cases _ (month_of_yday_range true yd)
    rcases hcases with h | h | h | h | h | h | h | h | h | h | h | h
    · rw [h] at e ⊢; rw [show (0 : Int) + 1 = 1 from rfl, c0, c1]; omega
    · rw [h] at e ⊢; rw [show (1 : Int) + 1 = 2 from rfl, c1, c2]; omega
    · rw [h] at e ⊢; rw [show (2 : Int) + 1 = 3 from rfl, c2, c3]; omega
    · rw [h] at e ⊢; rw [show (3 : Int) + 1 = 4 from rfl, c3, c4]; omega
    · rw [h] at e ⊢; rw [show (4 : Int) + 1 = 5 from rfl, c4, c5]; omega
    · rw [h] at e ⊢; rw [show (5 : Int) + 1 = 6 from rfl, c5, c6]; omega
    · rw [h] at e ⊢; rw [show (6 : Int) + 1 = 7 from rfl, c6, c7]; omega
    · rw [h] at e ⊢; rw [show (7 : Int) + 1 = 8 from rfl, c7, c8]; omega
    · rw [h] at e ⊢; rw [show (8 : Int) + 1 = 9 from rfl, c8, c9]; omega
    · rw [h] at e ⊢; rw [show (9 : Int) + 1 = 10 from rfl, c9, c10]; omega
    · rw [h] at e ⊢; rw [show (10 : Int) + 1 = 11 from rfl, c10, c11]; omega
    · rw [h] at e ⊢; rw [show (11 : Int) + 1 = 12 from rfl, c11, c12]; omega

theorem days_in_month_bounds (y m : Int) (hm0 : 0 ≤ m) (hm : m ≤ 11) :
    28 ≤ days_in_month y m ∧ days_in_month y m ≤ 31 := by
  unfold days_in_month
  cases isleap y
  ·
    obtain ⟨c0, c1, c2, c3, c4, c5, c6, c7, c8, c9, c10, c11, c12⟩ := mon_yday_common
    rcases month_cases m ⟨hm0, hm⟩ with h | h | h | h | h | h | h | h | h | h | h | h
    · subst h; rw [show (0 : Int) + 1 = 1 from rfl, c0, c1]; omega
    · subst h; rw [show (1 : Int) + 1 = 2 from rfl, c1, c2]; omega
    · subst h; rw [show (2 : Int) + 1 = 3 from rfl, c2, c3]; omega
    · subst h; rw [show (3 : Int) + 1 = 4 from rfl, c3, c4]; omega
    · subst h; rw [show (4 : Int) + 1 = 5 from rfl, c4, c5]; omega
    · subst h; rw [show (5 : Int) + 1 = 6 from rfl, c5, c6]; omega
    · subst h; rw [show (6 : Int) + 1 = 7 from rfl, c6, c7]; omega
    · subst h; rw [show (7 : Int) + 1 = 8 from rfl, c7, c8]; omega
    · subst h; rw [show (8 : Int) + 1 = 9 from rfl, c8, c9]; omega
    · subst h; rw [show (9 : Int) + 1 = 10 from rfl, c9, c10]; omega
    · subst h; rw [show (10 : Int) + 1 = 11 from rfl, c10, c11]; omega
    · subst h; rw [show (11 : Int) + 1 = 12 from rfl, c11, c12]; omega
  ·
    obtain ⟨c0, c1, c2, c3, c4, c5, c6, c7, c8, c9, c10, c11, c12⟩ := mon_yday_leap
    rcases month_cases m ⟨hm0, hm⟩ with h | h | h | h | h | h | h | h | h | h | h | h
    · subst h; rw [show (0 : Int) + 1 = 1 from rfl, c0, c1]; omega
    · subst h; rw [show (1 : Int) + 1 = 2 from rfl, c1, c2]; omega
    · subst h; rw [show (2 : Int) + 1 = 3 from rfl, c2, c3]; omega
    · subst h; rw [show (3 : Int) + 1 = 4 from rfl, c3, c4]; omega
    · subst h; rw [show (4 : Int) + 1 = 5 from rfl, c4, c5]; omega
    · subst h; rw [show (5 : Int) + 1 = 6 from rfl, c5, c6]; omega
    · subst h; rw [show (6 : Int) + 1 = 7 from rfl, c6, c7]; omega
    · subst h; rw [show (7 : Int) + 1 = 8 from rfl, c7, c8]; omega
    · subst h; rw [show (8 : Int) + 1 = 9 from rfl, c8, c9]; omega
    · subst h; rw [show (9 : Int) + 1 = 10 from rfl, c9, c10]; omega
    · subst h; rw [show (10 : Int) + 1 = 11 from rfl, c10, c11]; omega
    · subst h; rw [show (11 : Int) + 1 = 12 from rfl, c11, c12]; omega

/-! ## `localtime`, `mktime` and the loop body -/

theorem yday_bounds (days : Int) :
    0 ≤ days - days_before_year (year_of_days days) ∧
      days - days_before_year (year_of_days days) < mon_yday (isleap (year_of_days days)) 12 := by
  have l := year_of_days_lb days
  have u := year_of_days_ub days
  rw [year_len_eq_mon_yday] at u
  omega

theorem localtime_valid (gmtoff t : Int) : (localtime gmtoff t).valid := by
  have hy := yday_bounds ((t + gmtoff) / 86400)
  have hm := month_of_yday_range (isleap (year_of_days ((t + gmtoff) / 86400)))
    ((t + gmtoff) / 86400 - days_before_year (year_of_days ((t + gmtoff) / 86400)))
  have hs := month_of_yday_spec (isleap (year_of_days ((t + gmtoff) / 86400)))
    ((t + gmtoff) / 86400 - days_before_year (year_of_days ((t + gmtoff) / 86400))) hy.1 hy.2
  unfold Tm.valid localtime days_in_month
  dsimp only
  rw [show year_of_days ((t + gmtoff) / 86400) - 1900 + 1900
    = year_of_days ((t + gmtoff) / 86400) by ring]
  refine ⟨by omega, by omega, by omega, hm, ?_⟩
  omega

theorem mktime_localtime (gmtoff t : Int) : mktime gmtoff (localtime gmtoff t) = t := by
  have hm := month_of_yday_range (isleap (year_of_days ((t + gmtoff) / 86400)))
    ((t + gmtoff) / 86400 - days_before_year (year_of_days ((t + gmtoff) / 86400)))
  unfold mktime localtime
  dsimp only
  rw [Int.ediv_eq_zero_of_lt hm.1 (by omega), Int.emod_eq_of_lt hm.1 (by omega),
    show year_of_days ((t + gmtoff) / 86400) - 1900 + 1900 + 0
    = year_of_days ((t + gmtoff) / 86400) by ring]
  omega

theorem step_eq (gmtoff : Int) (c : Cron) (next : Tm) :
    c.step gmtoff next =
      if c.month ≠ ∅ ∧ next.tm_mon ∉ c.month then some next.next_month
      else if c.day ≠ ∅ ∧ next.tm_mday ∉ c.day then
        some (add gmtoff next (24 * 3600)).clear_hour_min
      else if c.day_of_week ≠ ∅ ∧ next.tm_wday ∉ c.day_of_week then
        some (add gmtoff next (24 * 3600)).clear_hour_min
      else if c.hour ≠ ∅ ∧ next.tm_hour ∉ c.hour then some (add gmtoff next 3600).clear_min
      else if c.minute ≠ ∅ ∧ next.tm_min ∉ c.minute then some (add gmtoff next 60)
      else none := by
  unfold Cron.step Tm.next_month Tm.clear_hour_min Tm.clear_min
  by_cases h : next.tm_mon + 1 > 11
  · simp only [if_pos h]
  · simp only [if_neg h]

theorem mktime_of_mon_range (gmtoff : Int) (tm : Tm) (h0 : 0 ≤ tm.tm_mon) (h1 : tm.tm_mon ≤ 11) :
    mktime gmtoff tm =
      (days_before_year (tm.tm_year + 1900)
        + mon_yday (isleap (tm.tm_year + 1900)) tm.tm_mon + (tm.tm_mday - 1)) * 86400
        + tm.tm_hour * 3600 + tm.tm_min * 60 + tm.tm_sec - gmtoff := by
  unfold mktime
  dsimp only
  rw [Int.ediv_eq_zero_of_lt h0 (by omega), Int.emod_eq_of_lt h0 (by omega), add_zero]

theorem mon_yday_zero (leap : Bool) : mon_yday leap 0 = 0 := by
  cases leap
  · exact (mon_yday_common).1
  · exact (mon_yday_leap).1

/-- The month branch: a valid record moves to the first minute of the next month, which
is valid and later. -/
theorem month_branch (gmtoff : Int) (tm : Tm) (hv : tm.valid) :
    tm.next_month.valid ∧ mktime gmtoff tm < mktime gmtoff tm.next_month := by
  obtain ⟨hs, hmi, hh, hmo, hd⟩ := hv
  rw [mktime_of_mon_range gmtoff tm hmo.1 hmo.2]
  unfold days_in_month at hd
  by_cases hroll : tm.tm_mon + 1 > 11
  · have hm11 : tm.tm_mon = 11 := by omega
    have e : tm.next_month =
        ⟨tm.tm_sec, 0, 0, 1, 0, tm.tm_year + 1, tm.tm_wday, tm.tm_yday, tm.tm_isdst⟩ := by
      unfold Tm.next_month; rw [if_pos hroll, if_pos hroll]
    rw [e]
    rw [hm11] at hd ⊢
    rw [show (11 : Int) + 1 = 12 from rfl] at hd
    constructor
    · unfold Tm.valid
      dsimp only
      have := days_in_month_bounds (tm.tm_year + 1 + 1900) 0 (le_refl _) (by omega)
      omega
    · rw [mktime_of_mon_range]
      rotate_left
      · dsimp only; omega
      · dsimp only; omega
      dsimp only
      rw [show tm.tm_year + 1 + 1900 = tm.tm_year + 1900 + 1 by ring, days_before_year_succ,
        year_len_eq_mon_yday, mon_yday_zero]
      omega
  · have e : tm.next_month =
        ⟨tm.tm_sec, 0, 0, 1, tm.tm_mon + 1, tm.tm_year, tm.tm_wday, tm.tm_yday, tm.tm_isdst⟩ := by
      unfold Tm.next_month; rw [if_neg hroll, if_neg hroll]
    rw [e]
    constructor
    · unfold Tm.valid
      dsimp only
      have := days_in_month_bounds (tm.tm_year + 1900) (tm.tm_mon + 1) (by omega) (by omega)
      omega
    · rw [mktime_of_mon_range]
      rotate_left
      · dsimp only; omega
      · dsimp only; omega
      dsimp only
      omega

theorem clear_hour_min_spec (gmtoff : Int) {tm : Tm} (hv : tm.valid) :
    tm.clear_hour_min.valid ∧
      mktime gmtoff tm.clear_hour_min = mktime gmtoff tm - tm.tm_hour * 3600 - tm.tm_min * 60 := by
  constructor
  · unfold Tm.valid Tm.clear_hour_min at *
    dsimp only
    exact ⟨hv.1, by omega, by omega, hv.2.2.2.1, hv.2.2.2.2⟩
  · unfold mktime Tm.clear_hour_min; dsimp only; ring

theorem clear_min_spec (gmtoff : Int) {tm : Tm} (hv : tm.valid) :
    tm.clear_min.valid ∧ mktime gmtoff tm.clear_min = mktime gmtoff tm - tm.tm_min * 60 := by
  constructor
  · unfold Tm.valid Tm.clear_min at *
    dsimp only
    exact ⟨hv.1, by omega, hv.2.2.1, hv.2.2.2.1, hv.2.2.2.2⟩
  · unfold mktime Tm.clear_min; dsimp only; ring

theorem step_valid_increasing {gmtoff : Int} {c : Cron} {tm tm1 : Tm} (hv : tm.valid)
    (h : c.step gmtoff tm = some tm1) : tm1.valid ∧ mktime gmtoff tm < mktime gmtoff tm1 := by
  rw [step_eq] at h
  split_ifs at h with h1 h2 h3 h4 h5
  · simp only [Option.some.injEq] at h
    rw [← h]; exact month_branch gmtoff tm hv
  · simp only [Option.some.injEq] at h
    rw [← h]
    have hv1 := localtime_valid gmtoff (mktime gmtoff tm + 24 * 3600)
    have hc := clear_hour_min_spec gmtoff hv1
    unfold add
    refine ⟨hc.1, ?_⟩
    rw [hc.2, mktime_localtime]
    obtain ⟨_, hmi, hh, _, _⟩ := hv1
    omega
  · simp only [Option.some.injEq] at h
    rw [← h]
    have hv1 := localtime_valid gmtoff (mktime gmtoff tm + 24 * 3600)
    have hc := clear_hour_min_spec gmtoff hv1
    unfold add
    refine ⟨hc.1, ?_⟩
    rw [hc.2, mktime_localtime]
    obtain ⟨_, hmi, hh, _, _⟩ := hv1
    omega
  · simp only [Option.some.injEq] at h
    rw [← h]
    have hv1 := localtime_valid gmtoff (mktime gmtoff tm + 3600)
    have hc := clear_min_spec gmtoff hv1
    unfold add
    refine ⟨hc.1, ?_⟩
    rw [hc.2, mktime_localtime]
    obtain ⟨_, hmi, hh, _, _⟩ := hv1
    omega
  · simp only [Option.some.injEq] at h
    rw [← h]
    refine ⟨localtime_valid _ _, ?_⟩
    unfold add
    rw [mktime_localtime]
    omega

theorem mktime_set_sec_zero (gmtoff : Int) (tm : Tm) :
    mktime gmtoff { tm with tm_sec := 0 } = mktime gmtoff tm - tm.tm_sec := by
  unfold mktime; dsimp only; ring

theorem start_valid (gmtoff from_ : Int) : (Cron.start gmtoff from_).valid := by
  unfold Cron.start add
  exact localtime_valid _ _

theorem days_in_february (y : Int) : days_in_month y 1 ≤ 29 := by
  unfold days_in_month
  cases isleap y
  · rw [show (1 : Int) + 1 = 2 from rfl, (mon_yday_common).2.1, (mon_yday_common).2.2.1]; omega
  · rw [show (1 : Int) + 1 = 2 from rfl, (mon_yday_leap).2.1, (mon_yday_leap).2.2.1]; omega

theorem step_feb31 (gmtoff : Int) (tm : Tm) (hv : tm.valid) :
    (tm.tm_mon ∉ ({1} : Finset Int) ∨ tm.tm_mday ∉ ({31} : Finset Int)) ∧
    ∃ tm1, Cron.step gmtoff ⟨∅, ∅, {31}, {1}, ∅⟩ tm = some tm1 := by
  have hd : tm.tm_mon ∉ ({1} : Finset Int) ∨ tm.tm_mday ∉ ({31} : Finset Int) := by
    by_cases hm : tm.tm_mon = 1
    · right
      have := days_in_february (tm.tm_year + 1900)
      have h5 := hv.2.2.2.2
      rw [hm] at h5
      simp only [Finset.mem_singleton]
      omega
    · left; simpa using hm
  refine ⟨hd, ?_⟩
  rw [step_eq]
  dsimp only
  by_cases hm : tm.tm_mon ∉ ({1} : Finset Int)
  · rw [if_pos ⟨by decide, hm⟩]; exact ⟨_, rfl⟩
  · rw [if_neg (fun h => hm h.2)]
    have hd2 : tm.tm_mday ∉ ({31} : Finset Int) := by
      rcases hd with h | h
      · exact absurd h hm
      · exact h
    rw [if_pos ⟨by decide, hd2⟩]; exact ⟨_, rfl⟩


theorem iterate_feb31 (gmtoff : Int) (n : Nat) :
    ∀ tm : Tm, tm.valid →
      ∃ r, Cron.iterate gmtoff ⟨∅, ∅, {31}, {1}, ∅⟩ n tm = some r ∧ r.valid := by
  induction n with
  | zero => intro tm hv; exact ⟨tm, rfl, hv⟩
  | succ n ih =>
    intro tm hv
    obtain ⟨tm1, h1⟩ := (step_feb31 gmtoff tm hv).2
    unfold Cron.iterate
    rw [h1]
    exact ih tm1 (step_valid_increasing hv h1).1

theorem loop_feb31 (gmtoff : Int) (fuel : Nat) :
    ∀ tm : Tm, tm.valid → Cron.loop gmtoff ⟨∅, ∅, {31}, {1}, ∅⟩ fuel tm = none := by
  induction fuel with
  | zero => intro tm _; rfl
  | succ n ih =>
    intro tm hv
    obtain ⟨tm1, h1⟩ := (step_feb31 gmtoff tm hv).2
    unfold Cron.loop
    rw [h1]
    exact ih tm1 (step_valid_increasing hv h1).1

theorem localtime_sec (gmtoff t : Int) : (localtime gmtoff t).tm_sec = (t + gmtoff) % 60 := by
  unfold localtime; dsimp only; omega

theorem localtime_hour (gmtoff t : Int) :
    (localtime gmtoff t).tm_hour = (t + gmtoff) % 86400 / 3600 := rfl

theorem localtime_min (gmtoff t : Int) :
    (localtime gmtoff t).tm_min = (t + gmtoff) % 86400 % 3600 / 60 := rfl

/-- Two instants of the same local day have the same day of month and day of week. -/
theorem localtime_same_day {gmtoff t u : Int}
    (h : (u + gmtoff) / 86400 = (t + gmtoff) / 86400) :
    (localtime gmtoff u).tm_mday = (localtime gmtoff t).tm_mday ∧
    (localtime gmtoff u).tm_wday = (localtime gmtoff t).tm_wday := by
  unfold localtime; dsimp only; rw [h]; exact ⟨rfl, rfl⟩

theorem localtime_clear_hour_min (gmtoff y : Int) :
    (localtime gmtoff y).clear_hour_min
      = localtime gmtoff (y - (y + gmtoff) % 86400 + (y + gmtoff) % 60) := by
  have e1 : (y - (y + gmtoff) % 86400 + (y + gmtoff) % 60 + gmtoff) / 86400
      = (y + gmtoff) / 86400 := by omega
  have e2 : (y - (y + gmtoff) % 86400 + (y + gmtoff) % 60 + gmtoff) % 86400
      = (y + gmtoff) % 60 := by omega
  unfold Tm.clear_hour_min localtime
  dsimp only
  rw [e1, e2]
  congr 1 <;> omega

theorem localtime_clear_min (gmtoff y : Int) :
    (localtime gmtoff y).clear_min
      = localtime gmtoff (y - (y + gmtoff) % 3600 + (y + gmtoff) % 60) := by
  have e1 : (y - (y + gmtoff) % 3600 + (y + gmtoff) % 60 + gmtoff) / 86400
      = (y + gmtoff) / 86400 := by omega
  have e2 : (y - (y + gmtoff) % 3600 + (y + gmtoff) % 60 + gmtoff) % 86400
      = (y + gmtoff) % 86400 - (y + gmtoff) % 3600 + (y + gmtoff) % 60 := by omega
  unfold Tm.clear_min localtime
  dsimp only
  rw [e1, e2]
  congr 1 <;> omega

theorem not_admits_iff (s : Finset Int) (v : Int) : ¬ admits s v ↔ (s ≠ ∅ ∧ v ∉ s) := by
  unfold admits
  constructor
  · intro h; exact ⟨fun e => h (Or.inl e), fun e => h (Or.inr e)⟩
  · rintro ⟨h1, h2⟩ (h | h)
    · exact h1 h
    · exact h2 h

/-- With an empty month set, a pass of the loop body from the record of an instant `x`
at a whole local minute ends on the record of a later such instant `x1`, and no
whole-minute instant from `x` up to `x1` is consistent with the schedule. -/
theorem step_exact {gmtoff : Int} {c : Cron} (hm : c.month = ∅) {x : Int} {tm1 : Tm}
    (hx : (x + gmtoff) % 60 = 0) (h : c.step gmtoff (localtime gmtoff x) = some tm1) :
    ∃ x1, tm1 = localtime gmtoff x1 ∧ x < x1 ∧ (x1 + gmtoff) % 60 = 0 ∧
      ∀ u, x ≤ u → u < x1 → (u + gmtoff) % 60 = 0 → ¬ consistent gmtoff c u := by
  rw [step_eq] at h
  rw [if_neg (fun hh => hh.1 hm)] at h
  split_ifs at h with h2 h3 h4 h5 <;> simp only [Option.some.injEq] at h <;>
    unfold add at h <;> rw [mktime_localtime] at h
  · rw [localtime_clear_hour_min] at h
    refine ⟨_, h.symm, by omega, by omega, ?_⟩
    intro u hu1 hu2 _ hc
    have hd := (localtime_same_day (show (u + gmtoff) / 86400 = (x + gmtoff) / 86400
      by omega)).1
    have := hc.2.1
    rw [hd] at this
    exact (not_admits_iff _ _).mpr h2 this
  · rw [localtime_clear_hour_min] at h
    refine ⟨_, h.symm, by omega, by omega, ?_⟩
    intro u hu1 hu2 _ hc
    have hd := (localtime_same_day (show (u + gmtoff) / 86400 = (x + gmtoff) / 86400
      by omega)).2
    have := hc.2.2.1
    rw [hd] at this
    exact (not_admits_iff _ _).mpr h3 this
  · rw [localtime_clear_min] at h
    refine ⟨_, h.symm, by omega, by omega, ?_⟩
    intro u hu1 hu2 _ hc
    have := hc.2.2.2.1
    rw [localtime_hour] at this h4
    rw [show (u + gmtoff) % 86400 / 3600 = (x + gmtoff) % 86400 / 3600 by omega] at this
    exact (not_admits_iff _ _).mpr h4 this
  · refine ⟨_, h.symm, by omega, by omega, ?_⟩
    intro u hu1 hu2 hu3 hc
    have hux : u = x := by omega
    subst hux
    exact (not_admits_iff _ _).mpr h5 hc.2.2.2.2

theorem start_exact (gmtoff from_ : Int) :
    Cron.start gmtoff from_ = localtime gmtoff (from_ - (from_ + gmtoff) % 60 + 60) := by
  unfold Cron.start add
  dsimp only
  rw [mktime_set_sec_zero, mktime_localtime, localtime_sec]

theorem loop_terminates {gmtoff : Int} {c : Cron} (hm : c.month = ∅) {ustar : Int}
    (hw : (ustar + gmtoff) % 60 = 0) (hc : consistent gmtoff c ustar) (fuel : Nat) :
    ∀ x : Int, (x + gmtoff) % 60 = 0 → x ≤ ustar → ustar - x < fuel →
      ∃ r, c.loop gmtoff fuel (localtime gmtoff x) = some r := by
  induction fuel with
  | zero => intro x _ h1 h2; simp at h2; omega
  | succ n ih =>
    intro x hx h1 h2
    unfold Cron.loop
    cases hs : c.step gmtoff (localtime gmtoff x) with
    | none => exact ⟨_, rfl⟩
    | some tm1 =>
      dsimp only
      obtain ⟨x1, e1, hlt, hx1, hno⟩ := step_exact hm hx hs
      rw [e1]
      have hle : x1 ≤ ustar := by
        by_contra hcon
        exact hno ustar h1 (by omega) hw hc
      apply ih x1 hx1 hle
      push_cast at h2
      omega


theorem exists_admitted (s : Finset Int) (lo hi : Int) (hlo : lo ≤ hi)
    (h : ∀ v ∈ s, lo ≤ v ∧ v ≤ hi) : ∃ v, admits s v ∧ lo ≤ v ∧ v ≤ hi := by
  by_cases he : s = ∅
  · exact ⟨lo, Or.inl he, le_refl _, hlo⟩
  · obtain ⟨v, hv⟩ := Finset.nonempty_iff_ne_empty.mpr he
    exact ⟨v, Or.inr hv, h v hv⟩

/-- A schedule with empty month and day sets and in-domain other sets has a consistent
whole-minute instant after any given instant. -/
theorem exists_consistent_later (gmtoff : Int) (c : Cron) (from_ : Int)
    (hm : c.month = ∅) (hd : c.day = ∅)
    (hmin : ∀ v ∈ c.minute, 0 ≤ v ∧ v ≤ 59) (hh : ∀ v ∈ c.hour, 0 ≤ v ∧ v ≤ 23)
    (hw : ∀ v ∈ c.day_of_week, 0 ≤ v ∧ v ≤ 6) :
    ∃ u, from_ < u ∧ u ≤ from_ + 8 * 86400 ∧ (u + gmtoff) % 60 = 0 ∧ consistent gmtoff c u := by
  obtain ⟨m, am, m0, m1⟩ := exists_admitted c.minute 0 59 (by decide) hmin
  obtain ⟨h, ah, h0, h1⟩ := exists_admitted c.hour 0 23 (by decide) hh
  obtain ⟨w, aw, w0, w1⟩ := exists_admitted c.day_of_week 0 6 (by decide) hw
  have hdiv : ((((from_ + gmtoff) / 86400 + 1
        + (w - ((from_ + gmtoff) / 86400 + 1 + 4)) % 7) * 86400 + h * 3600 + m * 60 - gmtoff)
        + gmtoff) / 86400
      = (from_ + gmtoff) / 86400 + 1 + (w - ((from_ + gmtoff) / 86400 + 1 + 4)) % 7 := by
    omega
  have hmod : ((((from_ + gmtoff) / 86400 + 1
        + (w - ((from_ + gmtoff) / 86400 + 1 + 4)) % 7) * 86400 + h * 3600 + m * 60 - gmtoff)
        + gmtoff) % 86400 = h * 3600 + m * 60 := by
    omega
  refine ⟨((from_ + gmtoff) / 86400 + 1 + (w - ((from_ + gmtoff) / 86400 + 1 + 4)) % 7) * 86400
    + h * 3600 + m * 60 - gmtoff, by omega, by omega, by omega, ?_⟩
  refine ⟨Or.inl hm, Or.inl hd, ?_, ?_, ?_⟩
  · have e : (localtime gmtoff (((from_ + gmtoff) / 86400 + 1
        + (w - ((from_ + gmtoff) / 86400 + 1 + 4)) % 7) * 86400
        + h * 3600 + m * 60 - gmtoff)).tm_wday = w := by
      unfold localtime; dsimp only; rw [hdiv]; omega
    rw [e]; exact aw
  · rw [localtime_hour, hmod, show (h * 3600 + m * 60) / 3600 = h by omega]; exact ah
  · rw [localtime_min, hmod, show (h * 3600 + m * 60) % 3600 / 60 = m by omega]; exact am

/-! ## The parser -/

theorem find_first_of_drop (s : List Char) (c : Char) (pos : Nat) :
    find_first_of s c pos = (find_first_of (s.drop pos) c 0).map (· + pos) := by
  induction s generalizing pos with
  | nil => simp [find_first_of]
  | cons x xs ih =>
    cases pos with
    | zero => simp
    | succ n =>
      rw [find_first_of, ih n, List.drop_succ_cons, Option.map_map]
      rfl

theorem comma_segments_none {rest : List Char} (h : find_first_of rest ',' 0 = none)
    (cur : List Char) : comma_segments cur rest = [] := by
  induction rest generalizing cur with
  | nil => rfl
  | cons x xs ih =>
    rw [find_first_of] at h
    split_ifs at h with hx
    rw [Option.map_eq_none'] at h
    rw [comma_segments, if_neg hx]
    exact ih h _

theorem comma_segments_some {rest : List Char} {i : Nat} (h : find_first_of rest ',' 0 = some i)
    (cur : List Char) :
    comma_segments cur rest
      = (cur.reverse ++ rest.take i) :: comma_segments [] (rest.drop (i + 1)) := by
  induction rest generalizing cur i with
  | nil => simp [find_first_of] at h
  | cons x xs ih =>
    rw [find_first_of] at h
    split_ifs at h with hx
    · simp only [Option.some.injEq] at h
      subst h
      rw [comma_segments, if_pos hx]
      simp
    · rw [Option.map_eq_some'] at h
      obtain ⟨j, hj, rfl⟩ := h
      rw [comma_segments, if_neg hx, ih hj]
      simp

theorem verify_loop_eq (token expression : List Char) (lower_bound upper_bound : Int)
    (adjust : Bool) (n : Nat) :
    ∀ (last : Nat) (fields : Finset Int), token.length - last ≤ n →
      verify_loop token expression lower_bound upper_bound adjust last fields
        = insert_segments expression lower_bound upper_bound adjust
            (comma_segments [] (token.drop last)) fields := by
  induction n with
  | zero =>
    intro last fields hn
    rw [verify_loop]
    have hd : token.drop last = [] := List.drop_eq_nil_of_le (by omega)
    split
    · rw [hd]; rfl
    · rename_i p hp
      have := find_first_of_bounds hp
      omega
  | succ n ih =>
    intro last fields hn
    rw [verify_loop]
    split
    · rename_i hnone
      rw [find_first_of_drop, Option.map_eq_none'] at hnone
      rw [comma_segments_none hnone]; rfl
    · rename_i p hp
      have hb := find_first_of_bounds hp
      rw [find_first_of_drop, Option.map_eq_some'] at hp
      obtain ⟨i, hi, rfl⟩ := hp
      rw [comma_segments_some hi, insert_segments]
      simp only [List.reverse_nil, List.nil_append, substr, Nat.add_sub_cancel]
      cases stoi (List.take i (List.drop last token)) with
      | invalid_argument => rfl
      | out_of_range => rfl
      | value field =>
        dsimp only
        split_ifs <;>
          first
          | rfl
          | rw [ih (i + last + 1) _ (by omega), List.drop_drop,
              show last + (i + 1) = i + last + 1 by omega]

theorem verify_and_set_eq_scan (token expression : List Char) (fields : Finset Int)
    (lower_bound upper_bound : Int) (adjust : Bool) :
    verify_and_set token expression fields lower_bound upper_bound adjust
      = scan_and_set token expression fields lower_bound upper_bound adjust := by
  unfold verify_and_set scan_and_set
  rw [verify_loop_eq token expression lower_bound upper_bound adjust token.length 0 fields
    (by omega)]
  rfl

theorem construct_eq_scan (expression : List Char) :
    Cron.construct expression = Cron.construct_scan expression := by
  unfold Cron.construct Cron.construct_scan
  simp only [verify_and_set_eq_scan]

theorem isdigit_not_special {c : Char} (h : isdigit c = true) :
    isspace c = false ∧ c ≠ '-' ∧ c ≠ '+' ∧ c ≠ ',' := by
  unfold isdigit at h
  simp only [Bool.and_eq_true, decide_eq_true_eq] at h
  obtain ⟨h1, h2⟩ := h
  have h1n : (48 : Nat) ≤ c.toNat := h1
  have h2n : c.toNat ≤ 57 := h2
  refine ⟨?_, ?_, ?_, ?_⟩
  · unfold isspace
    simp only [Bool.or_eq_false_iff, decide_eq_false_iff_not]
    refine ⟨⟨⟨⟨⟨?_, ?_⟩, ?_⟩, ?_⟩, ?_⟩, ?_⟩ <;> (intro hc; rw [hc] at h1n; revert h1n; decide)
  · intro hc; rw [hc] at h1n; revert h1n; decide
  · intro hc; rw [hc] at h1n; revert h1n; decide
  · intro hc; rw [hc] at h1n; revert h1n; decide

theorem takeWhile_all {ds : List Char} (h : ds.all isdigit = true) :
    ds.takeWhile isdigit = ds := by
  rw [List.takeWhile_eq_self_iff]
  intro x hx
  exact (List.all_eq_true.mp h) x hx

/-- On a decimal integer literal whose value fits an `int`, `stoi` returns that value. -/
theorem stoi_decimal {seg : List Char} {v : Int} (h : decimal_value seg = some v)
    (hlo : -2147483648 ≤ v) (hhi : v ≤ 2147483647) : stoi seg = .value v := by
  unfold decimal_value at h
  split at h
  · rename_i ds
    split_ifs at h with hd
    simp only [Option.some.injEq] at h
    unfold stoi
    simp only [List.dropWhile_cons, show isspace '-' = false from rfl, List.head?_cons,
      true_or, if_true, List.tail_cons, takeWhile_all hd.2, if_neg hd.1, Bool.false_eq_true,
      if_false]
    rw [h, if_neg (by omega)]
  · rename_i ds
    split_ifs at h with hd
    simp only [Option.some.injEq] at h
    unfold stoi
    simp only [List.dropWhile_cons, show isspace '+' = false from rfl, List.head?_cons,
      or_true, if_true, List.tail_cons, takeWhile_all hd.2, if_neg hd.1, Bool.false_eq_true,
      if_false, Option.some.injEq, show ¬ ('+' = '-') by decide]
    rw [h, if_neg (by omega)]
  · split_ifs at h with hd
    simp only [Option.some.injEq] at h
    obtain ⟨hne, hall⟩ := hd
    cases seg with
    | nil => exact absurd rfl hne
    | cons d ds =>
      have hdig : isdigit d = true := (List.all_eq_true.mp hall) d (List.mem_cons_self _ _)
      obtain ⟨hsp, hm, hp, _⟩ := isdigit_not_special hdig
      unfold stoi
      simp only [List.dropWhile_cons, hsp, List.head?_cons, Option.some.injEq, hm, hp,
        or_self, if_false, takeWhile_all hall, Bool.false_eq_true]
      rw [if_neg (by simp), h, if_neg (by omega)]
theorem insert_segments_ok (expression : List Char) (lo hi : Int) (adjust : Bool)
    (segs : List (List Char))
    (h : ∀ seg ∈ segs, ∃ v, stoi seg = .value v ∧ lo ≤ v ∧ v ≤ hi) (fields : Finset Int) :
    ∃ r, insert_segments expression lo hi adjust segs fields = .ok r := by
  induction segs generalizing fields with
  | nil => exact ⟨fields, rfl⟩
  | cons s rest ih =>
    obtain ⟨v, hv, h1, h2⟩ := h s (List.mem_cons_self _ _)
    rw [insert_segments, hv]
    dsimp only
    rw [if_neg (by omega)]
    exact ih (fun seg hseg => h seg (List.mem_cons_of_mem _ hseg)) _

theorem read_tokens_eq (cs cur : List Char) :
    read_tokens cs cur
      = (List.splitOnP.go isspace cs cur).filter (fun w => decide (w ≠ [])) := by
  induction cs generalizing cur with
  | nil =>
    rw [read_tokens, List.splitOnP.go]
    by_cases h : cur = []
    · subst h; rfl
    · rw [if_neg h, List.filter_cons_of_pos (by simpa using h)]; rfl
  | cons c cs ih =>
    rw [read_tokens, List.splitOnP.go]
    by_cases hc : isspace c = true
    · rw [if_pos hc, if_pos hc]
      by_cases h : cur = []
      · subst h; rw [if_pos rfl, ih]; rfl
      · rw [if_neg h, ih, List.filter_cons_of_pos (by simpa using h)]
    · rw [if_neg hc, if_neg hc, ih]

/-- The tokens the constructor reads are the whitespace-separated words of the
expression. -/
theorem istream_tokens_eq_ws_words (expression : List Char) :
    istream_tokens expression = ws_words expression :=
  read_tokens_eq expression []

theorem comma_segments_eq (rest cur : List Char) :
    comma_segments cur rest = (List.splitOnP.go (· == ',') rest cur).dropLast := by
  induction rest generalizing cur with
  | nil => rfl
  | cons c cs ih =>
    rw [comma_segments, List.splitOnP.go]
    by_cases hc : c = ','
    · rw [if_pos hc, if_pos (by simpa using hc), ih]
      rw [List.dropLast_cons_of_ne_nil (List.splitOnP.go_ne_nil _ _ _)]
    · rw [if_neg hc, if_neg (by simpa using hc), ih]

/-- The sub-tokens `verify_and_set` looks at are the pieces of the token between commas,
the last piece left out. -/
theorem comma_segments_eq_splitOn (token : List Char) :
    comma_segments [] token = (token.splitOn ',').dropLast :=
  comma_segments_eq token []

theorem scan_and_set_ok (expression : List Char) (lo hi : Int) (adjust : Bool)
    (hlo : -2147483648 ≤ lo) (hhi : hi ≤ 2147483647) {token : List Char}
    (h : well_formed_field lo hi token = true) (fields : Finset Int) :
    ∃ r, scan_and_set token expression fields lo hi adjust = .ok r := by
  unfold scan_and_set
  split_ifs with hstar
  · unfold well_formed_field at h
    simp only [Bool.or_eq_true, decide_eq_true_eq, List.all_eq_true] at h
    rcases h with h | hall
    · exact absurd h hstar
    · apply insert_segments_ok
      intro seg hseg
      rw [comma_segments_eq_splitOn] at hseg
      have hlit := hall seg (List.mem_of_mem_dropLast hseg)
      unfold literal_in_bounds at hlit
      cases hv : decimal_value seg with
      | none => rw [hv] at hlit; simp at hlit
      | some v =>
        rw [hv] at hlit
        simp only [Bool.and_eq_true, decide_eq_true_eq] at hlit
        exact ⟨v, stoi_decimal hv (by omega) (by omega), hlit.1, hlit.2⟩
  · exact ⟨fields, rfl⟩

theorem construct_scan_total {expression : List Char} (h : well_formed expression = true) :
    ∃ c, Cron.construct_scan expression = .ok c := by
  unfold well_formed at h
  split at h
  · rename_i t0 t1 t2 t3 t4 htok
    simp only [Bool.and_eq_true] at h
    obtain ⟨⟨⟨⟨h0, h1⟩, h2⟩, h3⟩, h4⟩ := h
    obtain ⟨r0, e0⟩ := scan_and_set_ok expression 0 59 false (by decide) (by decide) h0 ∅
    obtain ⟨r1, e1⟩ := scan_and_set_ok expression 0 23 false (by decide) (by decide) h1 ∅
    obtain ⟨r2, e2⟩ := scan_and_set_ok expression 1 31 false (by decide) (by decide) h2 ∅
    obtain ⟨r3, e3⟩ := scan_and_set_ok expression 1 12 true (by decide) (by decide) h3 ∅
    obtain ⟨r4, e4⟩ := scan_and_set_ok expression 0 6 false (by decide) (by decide) h4 ∅
    refine ⟨⟨r0, r1, r2, r3, r4⟩, ?_⟩
    unfold Cron.construct_scan
    rw [istream_tokens_eq_ws_words, htok]
    dsimp only
    rw [e0, e1, e2, e3, e4]
    rfl
  · simp at h

theorem insert_segments_bounds (expression : List Char) (lo hi : Int) (adjust : Bool)
    (segs : List (List Char)) :
    ∀ (fields r : Finset Int), insert_segments expression lo hi adjust segs fields = .ok r →
      (∀ v ∈ fields, lo - (if adjust then 1 else 0) ≤ v ∧ v ≤ hi - (if adjust then 1 else 0)) →
      ∀ v ∈ r, lo - (if adjust then 1 else 0) ≤ v ∧ v ≤ hi - (if adjust then 1 else 0) := by
  induction segs with
  | nil =>
    intro fields r h hf
    rw [insert_segments] at h
    simp only [Except.ok.injEq] at h
    subst h; exact hf
  | cons s rest ih =>
    intro fields r h hf
    rw [insert_segments] at h
    cases hs : stoi s with
    | invalid_argument => rw [hs] at h; simp at h
    | out_of_range => rw [hs] at h; simp at h
    | value field =>
      rw [hs] at h
      dsimp only at h
      split_ifs at h with hb hadj
      · refine ih _ r h ?_
        intro v hv
        rcases Finset.mem_insert.mp hv with h1 | h1
        · have := hf
          simp only [hadj, if_true] at *
          omega
        · exact hf v h1
      · refine ih _ r h ?_
        intro v hv
        rcases Finset.mem_insert.mp hv with h1 | h1
        · simp only [hadj] at *
          simp only [Bool.false_eq_true, if_false] at *
          omega
        · exact hf v h1

theorem scan_and_set_bounds {token expression : List Char} {lo hi : Int} {adjust : Bool}
    {r : Finset Int} (h : scan_and_set token expression ∅ lo hi adjust = .ok r) :
    ∀ v ∈ r, lo - (if adjust then 1 else 0) ≤ v ∧ v ≤ hi - (if adjust then 1 else 0) := by
  unfold scan_and_set at h
  split_ifs at h
  · exact insert_segments_bounds _ _ _ _ _ _ _ h (by simp)
  · simp only [Except.ok.injEq] at h
    subst h; simp

theorem insert_segments_error (expression : List Char) (lo hi : Int) (adjust : Bool)
    (segs : List (List Char)) :
    ∀ (fields : Finset Int) (x : BadCronExpression),
      insert_segments expression lo hi adjust segs fields = .error x →
      ∀ e, x ≠ .must_be_5_fields e := by
  induction segs with
  | nil => intro fields x h; rw [insert_segments] at h; simp at h
  | cons s rest ih =>
    intro fields x h
    rw [insert_segments] at h
    cases hs : stoi s with
    | invalid_argument =>
      rw [hs] at h; simp only [Except.error.injEq] at h; subst h; intro e; simp
    | out_of_range =>
      rw [hs] at h; simp only [Except.error.injEq] at h; subst h; intro e; simp
    | value field =>
      rw [hs] at h
      dsimp only at h
      split_ifs at h
      · simp only [Except.error.injEq] at h; subst h; intro e; simp
      · exact ih _ x h
      · exact ih _ x h

theorem scan_and_set_error {token expression : List Char} {fields : Finset Int} {lo hi : Int}
    {adjust : Bool} {x : BadCronExpression}
    (h : scan_and_set token expression fields lo hi adjust = .error x) :
    ∀ e, x ≠ .must_be_5_fields e := by
  unfold scan_and_set at h
  split_ifs at h
  exact insert_segments_error _ _ _ _ _ _ x h

/-- What the constructor does once the expression has five tokens. -/
theorem construct_scan_five {expression t0 t1 t2 t3 t4 : List Char}
    (htok : istream_tokens expression = [t0, t1, t2, t3, t4]) :
    Cron.construct_scan expression =
      (scan_and_set t0 expression ∅ 0 59 false).bind fun minute =>
      (scan_and_set t1 expression ∅ 0 23 false).bind fun hour =>
      (scan_and_set t2 expression ∅ 1 31 false).bind fun day =>
      (scan_and_set t3 expression ∅ 1 12 true).bind fun month =>
      (scan_and_set t4 expression ∅ 0 6 false).bind fun day_of_week =>
      .ok ⟨minute, hour, day, month, day_of_week⟩ := by
  unfold Cron.construct_scan
  rw [htok]
  rfl

theorem construct_scan_not_five {expression : List Char}
    (h : (istream_tokens expression).length ≠ 5) :
    Cron.construct_scan expression = .error (.must_be_5_fields expression) := by
  unfold Cron.construct_scan
  split
  · rename_i heq
    rw [heq] at h
    exact absurd rfl h
  · rfl

theorem length_five {α : Type} {l : List α} (h : l.length = 5) :
    ∃ a b c d e, l = [a, b, c, d, e] := by
  match l, h with
  | [a, b, c, d, e], _ => exact ⟨a, b, c, d, e, rfl⟩

theorem construct_scan_ok {expression : List Char} {c : Cron}
    (h : Cron.construct_scan expression = .ok c) :
    ∃ t0 t1 t2 t3 t4, istream_tokens expression = [t0, t1, t2, t3, t4] ∧
      scan_and_set t0 expression ∅ 0 59 false = .ok c.minute ∧
      scan_and_set t1 expression ∅ 0 23 false = .ok c.hour ∧
      scan_and_set t2 expression ∅ 1 31 false = .ok c.day ∧
      scan_and_set t3 expression ∅ 1 12 true = .ok c.month ∧
      scan_and_set t4 expression ∅ 0 6 false = .ok c.day_of_week := by
  by_cases hlen : (istream_tokens expression).length = 5
  · obtain ⟨t0, t1, t2, t3, t4, htok⟩ := length_five hlen
    refine ⟨t0, t1, t2, t3, t4, htok, ?_⟩
    rw [construct_scan_five htok] at h
    cases h0 : scan_and_set t0 expression ∅ 0 59 false with
    | error x => rw [h0] at h; simp [Except.bind] at h
    | ok r0 =>
    cases h1 : scan_and_set t1 expression ∅ 0 23 false with
    | error x => rw [h0, h1] at h; simp [Except.bind] at h
    | ok r1 =>
    cases h2 : scan_and_set t2 expression ∅ 1 31 false with
    | error x => rw [h0, h1, h2] at h; simp [Except.bind] at h
    | ok r2 =>
    cases h3 : scan_and_set t3 expression ∅ 1 12 true with
    | error x => rw [h0, h1, h2, h3] at h; simp [Except.bind] at h
    | ok r3 =>
    cases h4 : scan_and_set t4 expression ∅ 0 6 false with
    | error x => rw [h0, h1, h2, h3, h4] at h; simp [Except.bind] at h
    | ok r4 =>
    rw [h0, h1, h2, h3, h4] at h
    simp only [Except.bind, Except.ok.injEq] at h
    subst h
    exact ⟨rfl, rfl, rfl, rfl, rfl⟩
  · rw [construct_scan_not_five hlen] at h
    simp at h

theorem construct_scan_arity_iff (expression : List Char) :
    Cron.construct_scan expression = .error (.must_be_5_fields expression)
      ↔ (istream_tokens expression).length ≠ 5 := by
  constructor
  · intro h hlen
    obtain ⟨t0, t1, t2, t3, t4, htok⟩ := length_five hlen
    rw [construct_scan_five htok] at h
    cases h0 : scan_and_set t0 expression ∅ 0 59 false with
    | error x =>
      rw [h0] at h; simp only [Except.bind, Except.error.injEq] at h
      exact scan_and_set_error h0 _ h
    | ok r0 =>
    cases h1 : scan_and_set t1 expression ∅ 0 23 false with
    | error x =>
      rw [h0, h1] at h; simp only [Except.bind, Except.error.injEq] at h
      exact scan_and_set_error h1 _ h
    | ok r1 =>
    cases h2 : scan_and_set t2 expression ∅ 1 31 false with
    | error x =>
      rw [h0, h1, h2] at h; simp only [Except.bind, Except.error.injEq] at h
      exact scan_and_set_error h2 _ h
    | ok r2 =>
    cases h3 : scan_and_set t3 expression ∅ 1 12 true with
    | error x =>
      rw [h0, h1, h2, h3] at h; simp only [Except.bind, Except.error.injEq] at h
      exact scan_and_set_error h3 _ h
    | ok r3 =>
    cases h4 : scan_and_set t4 expression ∅ 0 6 false with
    | error x =>
      rw [h0, h1, h2, h3, h4] at h; simp only [Except.bind, Except.error.injEq] at h
      exact scan_and_set_error h4 _ h
    | ok r4 =>
      rw [h0, h1, h2, h3, h4] at h; simp [Except.bind] at h
  · exact construct_scan_not_five

theorem splitOn_no_comma {token : List Char} (h : ',' ∉ token) :
    token.splitOn ',' = [token] := by
  unfold List.splitOn
  apply List.splitOnP_eq_single
  intro x hx hc
  simp only [beq_iff_eq] at hc
  exact h (hc ▸ hx)

/-! ## The claims of the specification -/

/-- C1, evaluated where it fails: for the schedule of `* * * 2, 6,` (month February, day of
week Saturday, all sets within their domains) and `from` = 2020-01-15 10:00:00 UTC,
`cron_to_next` returns 2020-02-08 00:00:00, while 2020-02-01 00:00:00, a Saturday in
February, is consistent with the schedule and lies strictly between the two. The month
branch moves the date and keeps the weekday of 15 January in `tm_wday`. -/
theorem cron_to_next_not_minimal :
    Cron.construct "* * * 2, 6,".toList = .ok ⟨∅, ∅, ∅, {1}, {6}⟩ ∧
    in_domain ⟨∅, ∅, ∅, {1}, {6}⟩ ∧
    Cron.cron_to_next 0 ⟨∅, ∅, ∅, {1}, {6}⟩ 20 1579082400 = some 1581120000 ∧
    consistent 0 ⟨∅, ∅, ∅, {1}, {6}⟩ 1580515200 ∧
    1579082400 < 1580515200 ∧ 1580515200 < (1581120000 : Int) := by
  refine ⟨by rw [construct_eq_scan]; decide, ?_, by decide, by decide, by decide, by decide⟩
  unfold in_domain
  simp

/-- C2, evaluated where it fails: for the schedule of `* * * 2, 3,` (month February, day of
week Wednesday) and `from` = 2020-01-15 10:00:00 UTC, a Wednesday, `cron_to_next` returns
2020-02-01 00:00:00, whose day of week recomputed from the date is 6 (Saturday): the
returned instant is not consistent with the schedule. -/
theorem cron_to_next_wrong_weekday :
    Cron.construct "* * * 2, 3,".toList = .ok ⟨∅, ∅, ∅, {1}, {3}⟩ ∧
    Cron.cron_to_next 0 ⟨∅, ∅, ∅, {1}, {3}⟩ 20 1579082400 = some 1580515200 ∧
    (localtime 0 1580515200).tm_wday = 6 ∧
    ¬ consistent 0 ⟨∅, ∅, ∅, {1}, {3}⟩ 1580515200 :=
  ⟨by rw [construct_eq_scan]; decide, by decide, by decide, by decide⟩

/-- C4, evaluated where it fails: `verify_and_set` stores no value for the token `5` and
only `5` for the token `5,10`; the sub-token after the last comma is never read. -/
theorem verify_and_set_drops_last_segment :
    verify_and_set "5".toList "5 * * * *".toList ∅ 0 59 false = .ok ∅ ∧
    verify_and_set "5,10".toList "5,10 * * * *".toList ∅ 0 59 false = .ok {5} :=
  ⟨by rw [verify_and_set_eq_scan]; decide, by rw [verify_and_set_eq_scan]; decide⟩

/-- C5, evaluated where it fails: the constructor accepts `60 * * * *`, `0 0 0 * *`,
`0 0 * 13 *` and `x * * * *`, each with all five sets empty. -/
theorem construct_accepts_bad_fields :
    Cron.construct "60 * * * *".toList = .ok ⟨∅, ∅, ∅, ∅, ∅⟩ ∧
    Cron.construct "0 0 0 * *".toList = .ok ⟨∅, ∅, ∅, ∅, ∅⟩ ∧
    Cron.construct "0 0 * 13 *".toList = .ok ⟨∅, ∅, ∅, ∅, ∅⟩ ∧
    Cron.construct "x * * * *".toList = .ok ⟨∅, ∅, ∅, ∅, ∅⟩ :=
  ⟨by rw [construct_eq_scan]; decide, by rw [construct_eq_scan]; decide,
   by rw [construct_eq_scan]; decide, by rw [construct_eq_scan]; decide⟩

/-- C6, evaluated where it fails: `Cron("30 * * * *")` has an empty minute set, and
`cron_to_next` from 2020-01-01 00:00:00 UTC returns 2020-01-01 00:01:00, whose minute
is 1. -/
theorem single_minute_field_ignored :
    Cron.construct "30 * * * *".toList = .ok ⟨∅, ∅, ∅, ∅, ∅⟩ ∧
    Cron.cron_to_next 0 ⟨∅, ∅, ∅, ∅, ∅⟩ 10 1577836800 = some 1577836860 ∧
    (localtime 0 1577836860).tm_min = 1 :=
  ⟨by rw [construct_eq_scan]; decide, by decide, by decide⟩

/-- C7: the constructor throws the `must be 5 fields` exception exactly when the
expression does not have five whitespace-separated words; with another number of words
no field is looked at, with five words no field error is the arity error. -/
theorem construct_arity_iff (expression : List Char) :
    Cron.construct expression = .error (.must_be_5_fields expression)
      ↔ (ws_words expression).length ≠ 5 := by
  rw [construct_eq_scan, construct_scan_arity_iff, istream_tokens_eq_ws_words]

/-- C8: on every well-formed expression the constructor succeeds. -/
theorem construct_total (expression : List Char) (h : well_formed expression = true) :
    ∃ c, Cron.construct expression = .ok c := by
  rw [construct_eq_scan]
  exact construct_scan_total h

/-- Witness for C8: `5,10,15 0 1,15 1,12 *` is well formed and is accepted. -/
theorem construct_total_witness :
    well_formed "5,10,15 0 1,15 1,12 *".toList = true ∧
    ∃ c, Cron.construct "5,10,15 0 1,15 1,12 *".toList = .ok c :=
  ⟨by decide, construct_total "5,10,15 0 1,15 1,12 *".toList (by decide)⟩

/-- C9: every value stored by a successful constructor lies in the stored domain of its
field: minute 0..59, hour 0..23, day 1..31, month 0..11, day of week 0..6. -/
theorem construct_in_domain (expression : List Char) (c : Cron)
    (h : Cron.construct expression = .ok c) : in_domain c := by
  rw [construct_eq_scan] at h
  obtain ⟨t0, t1, t2, t3, t4, _, h0, h1, h2, h3, h4⟩ := construct_scan_ok h
  have b0 := scan_and_set_bounds h0
  have b1 := scan_and_set_bounds h1
  have b2 := scan_and_set_bounds h2
  have b3 := scan_and_set_bounds h3
  have b4 := scan_and_set_bounds h4
  simp only [Bool.false_eq_true, if_false, if_true, sub_zero] at b0 b1 b2 b3 b4
  refine ⟨b0, b1, b2, ?_, b4⟩
  intro v hv
  have := b3 v hv
  omega

/-- Witness for C9: `1,2, 3, 4, 1,12, 6,` stores minutes 1 and 2, hour 3, day 4, months 0
and 11 (January and December) and day of week 6. -/
theorem construct_in_domain_witness :
    Cron.construct "1,2, 3, 4, 1,12, 6,".toList = .ok ⟨{1, 2}, {3}, {4}, {0, 11}, {6}⟩ ∧
    in_domain ⟨{1, 2}, {3}, {4}, {0, 11}, {6}⟩ :=
  ⟨by rw [construct_eq_scan]; decide,
   construct_in_domain "1,2, 3, 4, 1,12, 6,".toList ⟨{1, 2}, {3}, {4}, {0, 11}, {6}⟩
     (by rw [construct_eq_scan]; decide)⟩

/-- C13: for the schedule day = {31}, month = {1} (February) and every reference instant,
after any number `n` of passes the loop is still running, on a record whose month is not
February or whose day is not the 31st, so that the month check or the day-of-month check
fires again; `cron_to_next` returns for no amount of fuel. -/
theorem february_31_never_returns (gmtoff from_ : Int) (n : Nat) :
    (∃ tm, Cron.iterate gmtoff ⟨∅, ∅, {31}, {1}, ∅⟩ n (Cron.start gmtoff from_) = some tm ∧
      (tm.tm_mon ∉ ({1} : Finset Int) ∨ tm.tm_mday ∉ ({31} : Finset Int)) ∧
      ∃ tm1, Cron.step gmtoff ⟨∅, ∅, {31}, {1}, ∅⟩ tm = some tm1) ∧
    Cron.cron_to_next gmtoff ⟨∅, ∅, {31}, {1}, ∅⟩ n from_ = none := by
  constructor
  · obtain ⟨tm, h, hv⟩ := iterate_feb31 gmtoff n _ (start_valid gmtoff from_)
    exact ⟨tm, h, step_feb31 gmtoff tm hv⟩
  · unfold Cron.cron_to_next
    rw [loop_feb31 gmtoff n _ (start_valid gmtoff from_)]

/-- C14: for a token other than `*`, `verify_and_set` runs its loop body on exactly the
pieces of the token that end at a comma, left to right, and never on what follows the
last comma; in particular a token without a comma leaves the set as it was and
succeeds. -/
theorem verify_and_set_reads_comma_segments (token expression : List Char)
    (fields : Finset Int) (lower_bound upper_bound : Int) (adjust : Bool)
    (h : token ≠ ['*']) :
    verify_and_set token expression fields lower_bound upper_bound adjust
      = insert_segments expression lower_bound upper_bound adjust
          (token.splitOn ',').dropLast fields ∧
    (',' ∉ token →
      verify_and_set token expression fields lower_bound upper_bound adjust = .ok fields) := by
  have e : verify_and_set token expression fields lower_bound upper_bound adjust
      = insert_segments expression lower_bound upper_bound adjust
          (token.splitOn ',').dropLast fields := by
    rw [verify_and_set_eq_scan]
    unfold scan_and_set
    rw [if_pos h, comma_segments_eq_splitOn]
  refine ⟨e, ?_⟩
  intro hc
  rw [e, splitOn_no_comma hc]
  rfl

/-- Witness for C14: `5,` stores 5, `5,10` stores only 5, and `5` and `x` store nothing and
succeed. -/
theorem verify_and_set_reads_comma_segments_witness :
    verify_and_set "5,".toList "5, * * * *".toList ∅ 0 59 false = .ok {5} ∧
    verify_and_set "5,10".toList "5,10 * * * *".toList ∅ 0 59 false = .ok {5} ∧
    verify_and_set "5".toList "5 * * * *".toList ∅ 0 59 false = .ok ∅ ∧
    verify_and_set "x".toList "x * * * *".toList ∅ 0 59 false = .ok ∅ :=
  ⟨by rw [(verify_and_set_reads_comma_segments "5,".toList "5, * * * *".toList ∅ 0 59 false
      (by decide)).1]; decide,
   by rw [(verify_and_set_reads_comma_segments "5,10".toList "5,10 * * * *".toList ∅ 0 59 false
      (by decide)).1]; decide,
   (verify_and_set_reads_comma_segments "5".toList "5 * * * *".toList ∅ 0 59 false
      (by decide)).2 (by decide),
   (verify_and_set_reads_comma_segments "x".toList "x * * * *".toList ∅ 0 59 false
      (by decide)).2 (by decide)⟩

/-- C19: for a schedule with empty month and day sets whose minute, hour and day-of-week
sets lie in 0..59, 0..23 and 0..6, the loop reaches `break` for every reference instant:
`cron_to_next` returns within a bounded number of passes. -/
theorem time_of_day_schedule_terminates (gmtoff : Int) (c : Cron) (from_ : Int)
    (hm : c.month = ∅) (hd : c.day = ∅)
    (hmin : ∀ v ∈ c.minute, 0 ≤ v ∧ v ≤ 59) (hh : ∀ v ∈ c.hour, 0 ≤ v ∧ v ≤ 23)
    (hw : ∀ v ∈ c.day_of_week, 0 ≤ v ∧ v ≤ 6) :
    ∃ fuel r, fuel ≤ 8 * 86400 ∧ c.cron_to_next gmtoff fuel from_ = some r := by
  obtain ⟨u, hu1, hu2, hu3, hu4⟩ := exists_consistent_later gmtoff c from_ hm hd hmin hh hw
  have hle : from_ - (from_ + gmtoff) % 60 + 60 ≤ u := by omega
  obtain ⟨r, hr⟩ := loop_terminates hm hu3 hu4 (8 * 86400)
    (from_ - (from_ + gmtoff) % 60 + 60) (by omega) hle (by push_cast; omega)
  refine ⟨8 * 86400, mktime gmtoff { r with tm_isdst := -1 }, le_refl _, ?_⟩
  unfold Cron.cron_to_next
  rw [start_exact, hr]

/-- Witness for C19: the schedule `minute = {0}, hour = {0}, day_of_week = {0}` from
2020-01-01 00:00:00 UTC. -/
theorem time_of_day_schedule_terminates_witness :
    ∃ fuel r, fuel ≤ 8 * 86400 ∧
      Cron.cron_to_next 0 ⟨{0}, {0}, ∅, ∅, {0}⟩ fuel 1577836800 = some r :=
  time_of_day_schedule_terminates 0 ⟨{0}, {0}, ∅, ∅, {0}⟩ 1577836800 rfl rfl
    (by decide) (by decide) (by decide)

end Bosma
